import Mathlib

/-!
Verification of the numerically meaningful routines of `adscode3.py`
(World Bank indicator analysis script): normalization (`scaler`),
inverse scaling (`backscale`), table reconciliation (`get_diff_entries`),
the confidence-envelope routine (`err_ranges`), the script's missing-value
resolution, and the script's name-binding order.

Modelling conventions:
 - numpy/pandas float cells are modelled by `ℚ` (or `ℝ` where the model
   functions need `exp`/`rpow`); a float produced by a division with zero
   denominator (numpy emits NaN/Inf there) is modelled by
   `none : Option ℚ`;
 - a Python exception (e.g. an IndexError from an out-of-range numpy
   access) is modelled by an `Option`-valued function returning `none`;
 - a DataFrame of numeric columns is column-major: `List (List ℚ)`,
   one inner list per column, since the routines below act per column;
 - `err_ranges` is generic in the ordered field of values so that it is
   executable on `ℚ` and usable with the real-valued model functions.
-/

/-- Model of `power_function(x, a, b) = a * x**b` (Python float power,
real exponent). -/
noncomputable def power_function (x a b : ℝ) : ℝ := a * Real.rpow x b

/-- Model of `sigmoid_function(x, a, b) = a / (1 + np.exp(-b * x))`. -/
noncomputable def sigmoid_function (x a b : ℝ) : ℝ :=
  a / (1 + Real.exp (-b * x))

/-- Python's `func(x, *param)` unpacking for the two-parameter model
functions: the first list element is `a`, the second is `b`. -/
def apply2 (f : ℝ → ℝ → ℝ → ℝ) : ℝ → List ℝ → ℝ :=
  fun x p => f x (p.getD 0 0) (p.getD 1 0)

/-- Model of `itertools.product(*uplow)`: all ways of picking one element
from each list, in lexicographic order of the input lists. -/
def product {α : Type} : List (List α) → List (List α)
  | [] => [[]]
  | l :: ls => l.flatMap (fun c => (product ls).map (fun r => c :: r))

/-- The `uplow` list built by `err_ranges`: for each parameter `p` with
sigma `s` (paired by `zip(param, sigma)`), the two endpoints
`[p - s, p + s]`. -/
def endpoints {α : Type} [Add α] [Sub α] (param sigma : List α) :
    List (List α) :=
  (param.zip sigma).map (fun ps => [ps.1 - ps.2, ps.1 + ps.2])

/-- One iteration of the loop `for p in pmix:` in `err_ranges`:
`lower = np.minimum(lower, y)` and `upper = np.maximum(upper, y)` with
`y = func(x, *p)`, taken pointwise over the query vector `x`. -/
def errStep {α : Type} [LinearOrder α] (x : List α) (func : α → List α → α)
    (lu : List α × List α) (p : List α) : List α × List α :=
  (List.zipWith min lu.1 (x.map (fun xi => func xi p)),
   List.zipWith max lu.2 (x.map (fun xi => func xi p)))

/-- Model of `err_ranges(x, func, param, sigma)` from `adscode3.py`
lines 90-119: `lower` and `upper` start as the baseline curve
`func(x, *param)` and are folded with pointwise min/max over the model
evaluated at every sign combination of the parameter perturbations. -/
def err_ranges {α : Type} [LinearOrder α] [Add α] [Sub α] (x : List α)
    (func : α → List α → α) (param sigma : List α) : List α × List α :=
  (product (endpoints param sigma)).foldl (errStep x func)
    (x.map (fun xi => func xi param), x.map (fun xi => func xi param))

/-- The family of curve values at one query point that `err_ranges`
minimises/maximises over: the baseline `func(x_j, *param)` together with
the model at every element of the Cartesian product of the endpoint
intervals. -/
def curvesAt {α : Type} [Add α] [Sub α] (func : α → List α → α) (xj : α)
    (param sigma : List α) : List α :=
  func xj param :: (product (endpoints param sigma)).map (fun p => func xj p)

-- List indexing helpers.

lemma getD_map_fd {α β : Type} (f : α → β) (l : List α) (j : ℕ) (d : α) :
    (l.map f).getD j (f d) = f (l.getD j d) := by
  induction l generalizing j with
  | nil => simp
  | cons a l ih =>
    cases j with
    | zero => simp
    | succ j => simp [ih j]

lemma getD_irrel {α : Type} (l : List α) (j : ℕ) (h : j < l.length)
    (d1 d2 : α) : l.getD j d1 = l.getD j d2 := by
  induction l generalizing j with
  | nil => simp at h
  | cons a l ih =>
    cases j with
    | zero => simp
    | succ j => exact ih j (by simpa using h)

lemma getD_map_lt {α β : Type} (f : α → β) (l : List α) (j : ℕ)
    (h : j < l.length) (d : β) (d' : α) :
    (l.map f).getD j d = f (l.getD j d') := by
  rw [getD_irrel (l.map f) j (by simpa using h) d (f d'), getD_map_fd]

lemma getD_zipWith {α : Type} (f : α → α → α) :
    ∀ (l1 l2 : List α) (j : ℕ) (d : α), j < l1.length → j < l2.length →
      (List.zipWith f l1 l2).getD j d = f (l1.getD j d) (l2.getD j d)
  | [], _, j, d, h1, _ => absurd h1 (by simp)
  | _ :: _, [], j, d, _, h2 => absurd h2 (by simp)
  | a :: l1, b :: l2, 0, d, _, _ => by simp
  | a :: l1, b :: l2, j + 1, d, h1, h2 => by
    simpa using getD_zipWith f l1 l2 j d (by simpa using h1)
      (by simpa using h2)

-- Facts about folding min/max over a list.

lemma foldl_min_le_init {α : Type} [LinearOrder α] :
    ∀ (l : List α) (b : α), l.foldl min b ≤ b
  | [], b => le_refl b
  | a :: l, b => le_trans (foldl_min_le_init l (min b a)) (min_le_left b a)

lemma init_le_foldl_max {α : Type} [LinearOrder α] :
    ∀ (l : List α) (b : α), b ≤ l.foldl max b
  | [], b => le_refl b
  | a :: l, b => le_trans (le_max_left b a) (init_le_foldl_max l (max b a))

lemma foldl_min_le_mem {α : Type} [LinearOrder α] :
    ∀ (l : List α) (b a : α), a ∈ l → l.foldl min b ≤ a
  | a' :: l, b, a, h => by
    rcases List.mem_cons.mp h with rfl | h
    · exact le_trans (foldl_min_le_init l (min b a)) (min_le_right b a)
    · exact foldl_min_le_mem l (min b a') a h

lemma mem_le_foldl_max {α : Type} [LinearOrder α] :
    ∀ (l : List α) (b a : α), a ∈ l → a ≤ l.foldl max b
  | a' :: l, b, a, h => by
    rcases List.mem_cons.mp h with rfl | h
    · exact le_trans (le_max_right b a) (init_le_foldl_max l (max b a))
    · exact mem_le_foldl_max l (max b a') a h

lemma foldl_min_mem {α : Type} [LinearOrder α] :
    ∀ (l : List α) (b : α), l.foldl min b ∈ b :: l
  | [], b => List.mem_cons_self b []
  | a :: l, b => by
    have h := foldl_min_mem l (min b a)
    rcases List.mem_cons.mp h with h | h
    · rcases min_choice b a with h' | h'
      · rw [List.foldl_cons, h, h']; exact List.mem_cons_self _ _
      · rw [List.foldl_cons, h, h']
        exact List.mem_cons_of_mem _ (List.mem_cons_self _ _)
    · exact List.mem_cons_of_mem _ (List.mem_cons_of_mem _ h)

lemma foldl_max_mem {α : Type} [LinearOrder α] :
    ∀ (l : List α) (b : α), l.foldl max b ∈ b :: l
  | [], b => List.mem_cons_self b []
  | a :: l, b => by
    have h := foldl_max_mem l (max b a)
    rcases List.mem_cons.mp h with h | h
    · rcases max_choice b a with h' | h'
      · rw [List.foldl_cons, h, h']; exact List.mem_cons_self _ _
      · rw [List.foldl_cons, h, h']
        exact List.mem_cons_of_mem _ (List.mem_cons_self _ _)
    · exact List.mem_cons_of_mem _ (List.mem_cons_of_mem _ h)

/-- Pointwise characterization of the fold inside `err_ranges`: entry `j`
of the accumulated lower (resp. upper) vector is the fold of `min`
(resp. `max`) over the curve values at `x_j`, and lengths are preserved. -/
lemma errFold_spec {α : Type} [LinearOrder α] (x : List α)
    (func : α → List α → α) :
    ∀ (ps : List (List α)) (l0 u0 : List α),
      l0.length = x.length → u0.length = x.length →
      (ps.foldl (errStep x func) (l0, u0)).1.length = x.length ∧
      (ps.foldl (errStep x func) (l0, u0)).2.length = x.length ∧
      ∀ (j : ℕ) (d : α), j < x.length →
        (ps.foldl (errStep x func) (l0, u0)).1.getD j d
          = (ps.map (fun p => func (x.getD j d) p)).foldl min (l0.getD j d) ∧
        (ps.foldl (errStep x func) (l0, u0)).2.getD j d
          = (ps.map (fun p => func (x.getD j d) p)).foldl max (u0.getD j d)
  | [], l0, u0, hl, hu => ⟨hl, hu, fun j d _ => ⟨rfl, rfl⟩⟩
  | p :: ps, l0, u0, hl, hu => by
    have hy : (x.map (fun xi => func xi p)).length = x.length := by simp
    have hl1 : (List.zipWith min l0 (x.map (fun xi => func xi p))).length
        = x.length := by
      rw [List.length_zipWith, hl, hy, min_self]
    have hu1 : (List.zipWith max u0 (x.map (fun xi => func xi p))).length
        = x.length := by
      rw [List.length_zipWith, hu, hy, min_self]
    obtain ⟨ihl, ihu, ihj⟩ := errFold_spec x func ps
      (List.zipWith min l0 (x.map (fun xi => func xi p)))
      (List.zipWith max u0 (x.map (fun xi => func xi p))) hl1 hu1
    have hstep : errStep x func (l0, u0) p
        = (List.zipWith min l0 (x.map (fun xi => func xi p)),
           List.zipWith max u0 (x.map (fun xi => func xi p))) := rfl
    refine ⟨by rw [List.foldl_cons, hstep]; exact ihl,
            by rw [List.foldl_cons, hstep]; exact ihu,
            fun j d hj => ?_⟩
    obtain ⟨e1, e2⟩ := ihj j d hj
    have hminj : (List.zipWith min l0 (x.map (fun xi => func xi p))).getD j d
        = min (l0.getD j d) (func (x.getD j d) p) := by
      rw [getD_zipWith min l0 _ j d (by omega) (by rw [hy]; exact hj),
        getD_map_lt (fun xi => func xi p) x j hj d d]
    have hmaxj : (List.zipWith max u0 (x.map (fun xi => func xi p))).getD j d
        = max (u0.getD j d) (func (x.getD j d) p) := by
      rw [getD_zipWith max u0 _ j d (by omega) (by rw [hy]; exact hj),
        getD_map_lt (fun xi => func xi p) x j hj d d]
    constructor
    · rw [List.foldl_cons, hstep, e1, hminj, List.map_cons, List.foldl_cons]
    · rw [List.foldl_cons, hstep, e2, hmaxj, List.map_cons, List.foldl_cons]

/-- The envelope of `err_ranges` brackets the baseline curve, for any
model function. -/
lemma err_ranges_le_base {α : Type} [LinearOrder α] [Add α] [Sub α]
    (x : List α) (func : α → List α → α) (param sigma : List α) (j : ℕ)
    (d : α) (hj : j < x.length) :
    (err_ranges x func param sigma).1.getD j d
        ≤ func (x.getD j d) param ∧
    func (x.getD j d) param
        ≤ (err_ranges x func param sigma).2.getD j d := by
  have hb : (x.map (fun xi => func xi param)).length = x.length := by simp
  obtain ⟨-, -, hjj⟩ := errFold_spec x func (product (endpoints param sigma))
    (x.map (fun xi => func xi param)) (x.map (fun xi => func xi param)) hb hb
  obtain ⟨e1, e2⟩ := hjj j d hj
  have hbase : (x.map (fun xi => func xi param)).getD j d
      = func (x.getD j d) param :=
    getD_map_lt (fun xi => func xi param) x j hj d d
  have hr : err_ranges x func param sigma
      = (product (endpoints param sigma)).foldl (errStep x func)
          (x.map (fun xi => func xi param),
           x.map (fun xi => func xi param)) := rfl
  constructor
  · rw [hr, e1, hbase]
    exact foldl_min_le_init _ _
  · rw [hr, e2, hbase]
    exact init_le_foldl_max _ _

-- Counting the enumerated sign combinations.

lemma sum_map_const {α : Type} : ∀ (l : List α) (k : ℕ),
    (l.map (fun _ => k)).sum = l.length * k
  | [], _ => by simp
  | a :: l, k => by
    simp [sum_map_const l k, Nat.succ_mul, Nat.add_comm]

lemma prod_map_const {α : Type} : ∀ (l : List α) (k : ℕ),
    (l.map (fun _ => k)).prod = k ^ l.length
  | [], _ => by simp
  | a :: l, k => by
    simp [prod_map_const l k, pow_succ, Nat.mul_comm]

lemma product_length {α : Type} : ∀ (ls : List (List α)),
    (product ls).length = (ls.map List.length).prod
  | [] => rfl
  | l :: ls => by
    have ih := product_length ls
    simp only [product, List.length_flatMap, List.map_map, List.map_cons,
      List.prod_cons]
    have hc : (l.map (fun c => ((product ls).map (fun r => c :: r)).length))
        = l.map (fun _ => (product ls).length) := by simp
    calc (l.map (fun c => ((product ls).map (fun r => c :: r)).length)).sum
        = (l.map (fun _ => (product ls).length)).sum := by rw [hc]
      _ = l.length * (product ls).length := sum_map_const l _
      _ = l.length * (ls.map List.length).prod := by rw [ih]

lemma endpoints_count {α : Type} [Add α] [Sub α] (param sigma : List α)
    (hlen : sigma.length = param.length) :
    (product (endpoints param sigma)).length = 2 ^ param.length := by
  rw [product_length, endpoints, List.map_map]
  have hc : (List.length ∘ fun ps : α × α => [ps.1 - ps.2, ps.1 + ps.2])
      = fun _ => (2 : ℕ) := by
    funext ps; rfl
  rw [hc, prod_map_const, List.length_zip, hlen, min_self]

/-- C1: for every query x-value, both model functions (power and sigmoid),
every parameter vector and every nonnegative sigma vector of equal length,
the envelope returned by `err_ranges` satisfies
`lower[j] <= model(x_j, *param) <= upper[j]` pointwise. -/
theorem err_ranges_envelope (x : List ℝ) (param sigma : List ℝ)
    (hlen : sigma.length = param.length) (hnn : ∀ s ∈ sigma, 0 ≤ s)
    (j : ℕ) (hj : j < x.length) :
    ((err_ranges x (apply2 power_function) param sigma).1.getD j 0
        ≤ apply2 power_function (x.getD j 0) param
      ∧ apply2 power_function (x.getD j 0) param
        ≤ (err_ranges x (apply2 power_function) param sigma).2.getD j 0)
    ∧ ((err_ranges x (apply2 sigmoid_function) param sigma).1.getD j 0
        ≤ apply2 sigmoid_function (x.getD j 0) param
      ∧ apply2 sigmoid_function (x.getD j 0) param
        ≤ (err_ranges x (apply2 sigmoid_function) param sigma).2.getD j 0) :=
  ⟨err_ranges_le_base x (apply2 power_function) param sigma j 0 hj,
   err_ranges_le_base x (apply2 sigmoid_function) param sigma j 0 hj⟩

/-- Witness for C1 at `x = [1]`, `param = [2, 3]`, `sigma = [1, 1]`,
`j = 0`. -/
theorem err_ranges_envelope_check :
    (([(1:ℝ), 1] : List ℝ).length = ([(2:ℝ), 3] : List ℝ).length
      ∧ (∀ s ∈ [(1:ℝ), 1], 0 ≤ s)
      ∧ 0 < ([(1:ℝ)] : List ℝ).length)
    ∧ (((err_ranges [(1:ℝ)] (apply2 power_function) [2, 3] [1, 1]).1.getD 0 0
          ≤ apply2 power_function (([(1:ℝ)] : List ℝ).getD 0 0) [2, 3]
        ∧ apply2 power_function (([(1:ℝ)] : List ℝ).getD 0 0) [2, 3]
          ≤ (err_ranges [(1:ℝ)] (apply2 power_function) [2, 3]
              [1, 1]).2.getD 0 0)
      ∧ ((err_ranges [(1:ℝ)] (apply2 sigmoid_function) [2, 3]
              [1, 1]).1.getD 0 0
          ≤ apply2 sigmoid_function (([(1:ℝ)] : List ℝ).getD 0 0) [2, 3]
        ∧ apply2 sigmoid_function (([(1:ℝ)] : List ℝ).getD 0 0) [2, 3]
          ≤ (err_ranges [(1:ℝ)] (apply2 sigmoid_function) [2, 3]
              [1, 1]).2.getD 0 0)) := by
  have hnn : ∀ s ∈ [(1:ℝ), 1], 0 ≤ s := by norm_num
  exact ⟨⟨rfl, hnn, by norm_num⟩,
    err_ranges_envelope [(1:ℝ)] [2, 3] [1, 1] rfl hnn 0 (by norm_num)⟩

/-- C2: for every model function and equal-length parameter and sigma
vectors, `err_ranges` enumerates all `2^n` endpoint combinations and
returns, pointwise at each query index, the minimum (lower) and maximum
(upper) over the baseline curve together with the model evaluated at
every one of those combinations. -/
theorem err_ranges_cartesian_min_max (x : List ℝ) (func : ℝ → List ℝ → ℝ)
    (param sigma : List ℝ) (hlen : sigma.length = param.length)
    (j : ℕ) (hj : j < x.length) :
    (product (endpoints param sigma)).length = 2 ^ param.length
    ∧ (err_ranges x func param sigma).1.getD j 0
        ∈ curvesAt func (x.getD j 0) param sigma
    ∧ (∀ v ∈ curvesAt func (x.getD j 0) param sigma,
        (err_ranges x func param sigma).1.getD j 0 ≤ v)
    ∧ (err_ranges x func param sigma).2.getD j 0
        ∈ curvesAt func (x.getD j 0) param sigma
    ∧ (∀ v ∈ curvesAt func (x.getD j 0) param sigma,
        v ≤ (err_ranges x func param sigma).2.getD j 0) := by
  have hb : (x.map (fun xi => func xi param)).length = x.length := by simp
  obtain ⟨-, -, hjj⟩ := errFold_spec x func (product (endpoints param sigma))
    (x.map (fun xi => func xi param)) (x.map (fun xi => func xi param)) hb hb
  obtain ⟨e1, e2⟩ := hjj j 0 hj
  have hbase : (x.map (fun xi => func xi param)).getD j 0
      = func (x.getD j 0) param :=
    getD_map_lt (fun xi => func xi param) x j hj 0 0
  have hr : err_ranges x func param sigma
      = (product (endpoints param sigma)).foldl (errStep x func)
          (x.map (fun xi => func xi param),
           x.map (fun xi => func xi param)) := rfl
  have hc : curvesAt func (x.getD j 0) param sigma
      = func (x.getD j 0) param
        :: (product (endpoints param sigma)).map
            (fun p => func (x.getD j 0) p) := rfl
  rw [hbase] at e1 e2
  refine ⟨endpoints_count param sigma hlen, ?_, ?_, ?_, ?_⟩
  · rw [hr, e1, hc]
    exact foldl_min_mem _ _
  · intro v hv
    rw [hc] at hv
    rw [hr, e1]
    rcases List.mem_cons.mp hv with rfl | hv
    · exact foldl_min_le_init _ _
    · exact foldl_min_le_mem _ _ v hv
  · rw [hr, e2, hc]
    exact foldl_max_mem _ _
  · intro v hv
    rw [hc] at hv
    rw [hr, e2]
    rcases List.mem_cons.mp hv with rfl | hv
    · exact init_le_foldl_max _ _
    · exact mem_le_foldl_max _ _ v hv

/-- Witness for C2 at `x = [1]`, `func = apply2 power_function`,
`param = [2, 3]`, `sigma = [1, 1]`, `j = 0`. -/
theorem err_ranges_cartesian_min_max_check :
    (([(1:ℝ), 1] : List ℝ).length = ([(2:ℝ), 3] : List ℝ).length
      ∧ 0 < ([(1:ℝ)] : List ℝ).length)
    ∧ ((product (endpoints [(2:ℝ), 3] [1, 1])).length
          = 2 ^ ([(2:ℝ), 3] : List ℝ).length
      ∧ (err_ranges [(1:ℝ)] (apply2 power_function) [2, 3]
            [1, 1]).1.getD 0 0
          ∈ curvesAt (apply2 power_function) (([(1:ℝ)] : List ℝ).getD 0 0)
              [2, 3] [1, 1]
      ∧ (∀ v ∈ curvesAt (apply2 power_function)
            (([(1:ℝ)] : List ℝ).getD 0 0) [2, 3] [1, 1],
          (err_ranges [(1:ℝ)] (apply2 power_function) [2, 3]
              [1, 1]).1.getD 0 0 ≤ v)
      ∧ (err_ranges [(1:ℝ)] (apply2 power_function) [2, 3]
            [1, 1]).2.getD 0 0
          ∈ curvesAt (apply2 power_function) (([(1:ℝ)] : List ℝ).getD 0 0)
              [2, 3] [1, 1]
      ∧ (∀ v ∈ curvesAt (apply2 power_function)
            (([(1:ℝ)] : List ℝ).getD 0 0) [2, 3] [1, 1],
          v ≤ (err_ranges [(1:ℝ)] (apply2 power_function) [2, 3]
              [1, 1]).2.getD 0 0)) :=
  ⟨⟨rfl, by norm_num⟩,
    err_ranges_cartesian_min_max [(1:ℝ)] (apply2 power_function) [2, 3]
      [1, 1] rfl 0 (by norm_num)⟩

-- Normalization and inverse scaling.

/-- Per-column minimum, as `df.min()` computes it (undefined on an empty
column; 0 is used as the value for that never-exercised case). -/
def colMin : List ℚ → ℚ
  | [] => 0
  | v :: vs => vs.foldl min v

/-- Per-column maximum, as `df.max()` computes it. -/
def colMax : List ℚ → ℚ
  | [] => 0
  | v :: vs => vs.foldl max v

/-- Float division as numpy performs it inside `scaler`: a zero
denominator yields NaN/Inf, modelled by `none`. -/
def qdiv (a b : ℚ) : Option ℚ := if b = 0 then none else some (a / b)

/-- Model of `scaler(df)` from `adscode3.py` lines 40-50: per column,
`(value - min) / (max - min)`, returning the normalized table together
with the per-column minima and maxima. -/
def scaler (df : List (List ℚ)) :
    List (List (Option ℚ)) × List ℚ × List ℚ :=
  (df.map (fun col => col.map
      (fun v => qdiv (v - colMin col) (colMax col - colMin col))),
   df.map colMin, df.map colMax)

/-- Reads the normalized table as plain numbers; only used on columns
where every cell is defined (`max` differs from `min`), where the
default 0 is never taken. -/
def unwrap (t : List (List (Option ℚ))) : List (List ℚ) :=
  t.map (fun col => col.map (fun c => c.getD 0))

/-- The loop of `backscale` from `adscode3.py` lines 53-63:
`for i in range(len(minima)): arr[:, i] = arr[:, i] * (maxima[i] -
minima[i]) + minima[i]`, walking the columns of `arr` (column-major)
alongside `minima`/`maxima`; an out-of-range access (`arr[:, i]` or
`maxima[i]` with `i` past the end) is numpy's IndexError, modelled by
`none`. -/
def backscaleGo : List (List ℚ) → List ℚ → List ℚ → Option (List (List ℚ))
  | arr, [], _ => some arr
  | [], _ :: _, _ => none
  | _ :: _, _ :: _, [] => none
  | col :: arr, m :: ms, M :: Ms =>
    match backscaleGo arr ms Ms with
    | none => none
    | some rest => some ((col.map (fun v => v * (M - m) + m)) :: rest)

/-- Model of `backscale(arr, df_min, df_max)`: runs the loop above and
returns `arr` (the same, now rewritten, array). -/
def backscale (arr : List (List ℚ)) (minima maxima : List ℚ) :
    Option (List (List ℚ)) :=
  backscaleGo arr minima maxima

/-- Contents of the array argument after a call to `backscale`: the
source assigns `arr[:, i] = ...` into the caller's buffer and
`return arr` returns that very buffer, so the argument's contents after
the call coincide with the returned array. -/
def backscale_arg_after (arr : List (List ℚ)) (minima maxima : List ℚ) :
    Option (List (List ℚ)) :=
  backscaleGo arr minima maxima

/-- Full description of `backscaleGo`: when `minima` is no longer than
the array and `maxima`, it succeeds; each of the first `minima.length`
columns is rescaled by `v * (max_i - min_i) + min_i` and the remaining
columns are untouched. -/
lemma backscaleGo_spec : ∀ (ms Ms : List ℚ) (arr : List (List ℚ)),
    ms.length ≤ arr.length → ms.length ≤ Ms.length →
    ∃ out, backscaleGo arr ms Ms = some out ∧ out.length = arr.length ∧
      ∀ (j : ℕ), out.getD j [] =
        (if j < ms.length then
          (arr.getD j []).map
            (fun v => v * (Ms.getD j 0 - ms.getD j 0) + ms.getD j 0)
        else arr.getD j [])
  | [], Ms, arr, _, _ => ⟨arr, by simp [backscaleGo], rfl, fun j => by simp⟩
  | m :: ms, Ms, arr, h1, h2 => by
    cases arr with
    | nil => simp at h1
    | cons col arr =>
      cases Ms with
      | nil => simp at h2
      | cons M Ms =>
        obtain ⟨rest, hrest, hlen, hj⟩ := backscaleGo_spec ms Ms arr
          (by simpa using h1) (by simpa using h2)
        refine ⟨(col.map (fun v => v * (M - m) + m)) :: rest,
          by simp [backscaleGo, hrest], by simp [hlen], fun j => ?_⟩
        cases j with
        | zero => simp
        | succ j => simpa using hj j

/-- C3: backscaling the normalized values produced by `scaler`, with the
minima and maxima it recorded, recovers the original values elementwise
in every column whose max differs from its min. -/
theorem scaler_backscale_round_trip (df : List (List ℚ)) (j : ℕ)
    (hj : j < df.length)
    (hne : colMin (df.getD j []) ≠ colMax (df.getD j [])) :
    ∃ out,
      backscale (unwrap (scaler df).1) (scaler df).2.1 (scaler df).2.2
        = some out
      ∧ out.getD j [] = df.getD j [] := by
  have hlen1 : ((scaler df).2.1).length ≤ (unwrap (scaler df).1).length := by
    simp [scaler, unwrap]
  have hlen2 : ((scaler df).2.1).length ≤ ((scaler df).2.2).length := by
    simp [scaler]
  obtain ⟨out, hout, hlen, hcol⟩ := backscaleGo_spec (scaler df).2.1
    (scaler df).2.2 (unwrap (scaler df).1) hlen1 hlen2
  refine ⟨out, hout, ?_⟩
  have hjm : j < ((scaler df).2.1).length := by simpa [scaler] using hj
  have hmins : ((scaler df).2.1).getD j 0 = colMin (df.getD j []) :=
    getD_map_fd colMin df j []
  have hmaxs : ((scaler df).2.2).getD j 0 = colMax (df.getD j []) :=
    getD_map_fd colMax df j []
  have hunwrap : unwrap (scaler df).1
      = df.map (fun col => col.map
          (fun v => (qdiv (v - colMin col)
              (colMax col - colMin col)).getD 0)) := by
    show (df.map _).map _ = _
    rw [List.map_map]
    congr 1
    funext col
    simp [Function.comp, List.map_map]
  have hcolj : (unwrap (scaler df).1).getD j []
      = (df.getD j []).map
          (fun v => (qdiv (v - colMin (df.getD j []))
              (colMax (df.getD j []) - colMin (df.getD j []))).getD 0) := by
    rw [hunwrap]
    exact getD_map_fd _ df j []
  rw [hcol j, if_pos hjm, hmins, hmaxs, hcolj, List.map_map]
  have hden : colMax (df.getD j []) - colMin (df.getD j []) ≠ 0 :=
    sub_ne_zero.mpr (Ne.symm hne)
  have hfun : ((fun v => v * (colMax (df.getD j [])
          - colMin (df.getD j [])) + colMin (df.getD j []))
        ∘ (fun v => (qdiv (v - colMin (df.getD j []))
            (colMax (df.getD j []) - colMin (df.getD j []))).getD 0))
      = id := by
    funext v
    show (qdiv (v - colMin (df.getD j []))
        (colMax (df.getD j []) - colMin (df.getD j []))).getD 0
          * (colMax (df.getD j []) - colMin (df.getD j []))
          + colMin (df.getD j []) = v
    rw [qdiv, if_neg hden]
    show (v - colMin (df.getD j []))
        / (colMax (df.getD j []) - colMin (df.getD j []))
        * (colMax (df.getD j []) - colMin (df.getD j []))
        + colMin (df.getD j []) = v
    rw [div_mul_cancel₀ _ hden, sub_add_cancel]
  rw [hfun, List.map_id]

/-- Witness for C3 on the table with one column `[10, 20]`. -/
theorem scaler_backscale_round_trip_check :
    (0 < ([[(10:ℚ), 20]] : List (List ℚ)).length
      ∧ colMin (([[(10:ℚ), 20]] : List (List ℚ)).getD 0 [])
          ≠ colMax (([[(10:ℚ), 20]] : List (List ℚ)).getD 0 []))
    ∧ ∃ out,
        backscale (unwrap (scaler [[(10:ℚ), 20]]).1)
          (scaler [[(10:ℚ), 20]]).2.1 (scaler [[(10:ℚ), 20]]).2.2
          = some out
        ∧ out.getD 0 [] = ([[(10:ℚ), 20]] : List (List ℚ)).getD 0 [] := by
  have hne : colMin (([[(10:ℚ), 20]] : List (List ℚ)).getD 0 [])
      ≠ colMax (([[(10:ℚ), 20]] : List (List ℚ)).getD 0 []) := by
    norm_num [colMin, colMax, min_def, max_def]
  exact ⟨⟨by decide, hne⟩,
    scaler_backscale_round_trip [[(10:ℚ), 20]] 0 (by decide) hne⟩

/-- C4 (code bug): on a column whose max equals its min, `scaler`
divides zero by zero, so every cell of that column is NaN (here `none`),
not the 0 sentinel in `[0,1]` the claim requires. -/
theorem scaler_zero_range_nan :
    scaler [[(5:ℚ), 5]] = ([[none, none]], [5], [5])
    ∧ (scaler [[(5:ℚ), 5]]).1 ≠ [[some 0, some 0]] := by
  have h1 : scaler [[(5:ℚ), 5]] = ([[none, none]], [5], [5]) := by
    norm_num [scaler, qdiv, colMin, colMax, min_def, max_def]
  refine ⟨h1, ?_⟩
  rw [show (scaler [[(5:ℚ), 5]]).1 = [[none, none]] from by rw [h1]]
  simp

/-- C5 (code bug): when the scale record is wider than the array,
`backscale` hits an unguarded out-of-range access (IndexError, modelled
`none`), and when the array is wider it silently succeeds; in neither
direction does it raise a named `DimensionMismatch`. -/
theorem backscale_mismatch_unguarded :
    backscale [[(1:ℚ), 2]] [0, 0] [1, 1] = none
    ∧ backscale [[(1:ℚ), 2], [3, 4], [5, 6]] [0, 0] [1, 1]
        = some [[(1:ℚ), 2], [3, 4], [5, 6]] := by
  constructor
  · norm_num [backscale, backscaleGo]
  · norm_num [backscale, backscaleGo]

/-- C9 counterexample: the centroid array passed to `backscale` does not
keep its original contents -- after the call the buffer holds the
backscaled values. -/
theorem backscale_arg_changed_cex :
    backscale_arg_after [[(0:ℚ), 1]] [10] [20] ≠ some [[(0:ℚ), 1]] := by
  norm_num [backscale_arg_after, backscaleGo]

/-- C9 amended: `backscale` produces its result in place: after a
successful call the argument buffer coincides with the returned array,
holding, in each recorded column, the values `v * (max_i - min_i) +
min_i`; so the centroid array is mutated rather than left unchanged. -/
theorem backscale_in_place_spec (arr : List (List ℚ)) (ms Ms : List ℚ)
    (h1 : ms.length ≤ arr.length) (h2 : ms.length ≤ Ms.length) :
    ∃ out, backscale arr ms Ms = some out
      ∧ backscale_arg_after arr ms Ms = some out
      ∧ ∀ j, j < ms.length →
          out.getD j [] = (arr.getD j []).map
            (fun v => v * (Ms.getD j 0 - ms.getD j 0) + ms.getD j 0) := by
  obtain ⟨out, hout, hlen, hj⟩ := backscaleGo_spec ms Ms arr h1 h2
  exact ⟨out, hout, hout, fun j hjlt => by rw [hj j, if_pos hjlt]⟩

/-- Witness for C9's amended statement on the centroid column `[0, 1]`
with recorded min 10 and max 20. -/
theorem backscale_in_place_spec_check :
    (([(10:ℚ)] : List ℚ).length ≤ ([[(0:ℚ), 1]] : List (List ℚ)).length
      ∧ ([(10:ℚ)] : List ℚ).length ≤ ([(20:ℚ)] : List ℚ).length)
    ∧ ∃ out, backscale [[(0:ℚ), 1]] [10] [20] = some out
        ∧ backscale_arg_after [[(0:ℚ), 1]] [10] [20] = some out
        ∧ ∀ j, j < ([(10:ℚ)] : List ℚ).length →
            out.getD j [] = (([[(0:ℚ), 1]] : List (List ℚ)).getD j []).map
              (fun v => v * (([(20:ℚ)] : List ℚ).getD j 0
                  - ([(10:ℚ)] : List ℚ).getD j 0)
                + ([(10:ℚ)] : List ℚ).getD j 0) :=
  ⟨⟨by decide, by decide⟩,
    backscale_in_place_spec [[(0:ℚ), 1]] [10] [20] (by decide) (by decide)⟩

-- Table reconciliation.

/-- Key column of `pd.merge(df1, df2, on=column, how="inner")`: each row
of `df1` paired with every row of `df2` carrying the same key, in left
order. -/
def innerRows {K : Type} [DecidableEq K] (k1 k2 : List K) : List K :=
  k1.flatMap (fun a => k2.filter (fun b => decide (b = a)))

/-- Key column of `pd.merge(df1, df2, on=column, how="outer")`: left rows
in order (expanded by their matches, kept when unmatched), then the
unmatched right rows. -/
def outerRows {K : Type} [DecidableEq K] (k1 k2 : List K) : List K :=
  (k1.flatMap (fun a =>
    if (k2.filter (fun b => decide (b = a))).isEmpty then [a]
    else k2.filter (fun b => decide (b = a))))
  ++ k2.filter (fun b => decide (b ∉ k1))

/-- Model of the body of `get_diff_entries`: the outer merge of `df_out`
(outer join of the inputs) with `df_in` (inner join, which carries
`exists = "Y"` on every row, here the tag `true`); rows of `df_out`
without a partner keep a missing tag (`false`). -/
def mergeTagged {K : Type} [DecidableEq K] (k1 k2 : List K) :
    List (K × Bool) :=
  (outerRows k1 k2).flatMap (fun a =>
    if ((innerRows k1 k2).filter (fun b => decide (b = a))).isEmpty
    then [(a, false)]
    else ((innerRows k1 k2).filter (fun b => decide (b = a))).map
      (fun _ => (a, true)))
  ++ ((innerRows k1 k2).filter
      (fun b => decide (b ∉ outerRows k1 k2))).map (fun b => (b, true))

/-- Model of `get_diff_entries(df1, df2, column)` from `adscode3.py`
lines 66-81 at the level of the key column: the keys of the merged frame
whose `exists` entry is not `"Y"`. -/
def get_diff_entries {K : Type} [DecidableEq K] (k1 k2 : List K) : List K :=
  ((mergeTagged k1 k2).filter (fun r => !r.2)).map (fun r => r.1)

lemma mem_innerRows {K : Type} [DecidableEq K] (k1 k2 : List K) (a : K) :
    a ∈ innerRows k1 k2 ↔ a ∈ k1 ∧ a ∈ k2 := by
  simp only [innerRows, List.mem_flatMap, List.mem_filter,
    decide_eq_true_eq]
  constructor
  · rintro ⟨a0, h1, h2, rfl⟩
    exact ⟨h1, h2⟩
  · rintro ⟨h1, h2⟩
    exact ⟨a, h1, h2, rfl⟩

lemma filter_isEmpty_iff {K : Type} [DecidableEq K] (l : List K) (a : K) :
    (l.filter (fun b => decide (b = a))).isEmpty = true ↔ a ∉ l := by
  rw [List.isEmpty_iff, List.filter_eq_nil_iff]
  simp only [decide_eq_true_eq]
  constructor
  · intro h ha
    exact h a ha rfl
  · intro h b hb hba
    exact h (hba ▸ hb)

lemma mem_outerRows {K : Type} [DecidableEq K] (k1 k2 : List K) (a : K) :
    a ∈ outerRows k1 k2 ↔ a ∈ k1 ∨ a ∈ k2 := by
  constructor
  · intro h
    rcases List.mem_append.mp h with h | h
    · obtain ⟨a0, ha0, hin⟩ := List.mem_flatMap.mp h
      by_cases he : (k2.filter (fun b => decide (b = a0))).isEmpty = true
      · rw [if_pos he] at hin
        rcases List.mem_singleton.mp hin with rfl
        exact Or.inl ha0
      · rw [if_neg he] at hin
        exact Or.inr (List.mem_filter.mp hin).1
    · exact Or.inr (List.mem_filter.mp h).1
  · intro h
    by_cases hk1 : a ∈ k1
    · apply List.mem_append_left
      apply List.mem_flatMap.mpr
      refine ⟨a, hk1, ?_⟩
      by_cases he : (k2.filter (fun b => decide (b = a))).isEmpty = true
      · rw [if_pos he]
        exact List.mem_singleton.mpr rfl
      · rw [if_neg he]
        have ha2 : a ∈ k2 := by
          rcases h with h | h
          · by_contra hn
            exact he ((filter_isEmpty_iff k2 a).mpr hn)
          · exact h
        exact List.mem_filter.mpr ⟨ha2, by simp⟩
    · rcases h with h | h
      · exact absurd h hk1
      · apply List.mem_append_right
        exact List.mem_filter.mpr ⟨h, by simpa using hk1⟩

lemma false_mem_mergeTagged {K : Type} [DecidableEq K] (k1 k2 : List K)
    (a : K) :
    (a, false) ∈ mergeTagged k1 k2
      ↔ a ∈ outerRows k1 k2 ∧ a ∉ innerRows k1 k2 := by
  constructor
  · intro h
    rcases List.mem_append.mp h with h | h
    · obtain ⟨a0, ha0, hin⟩ := List.mem_flatMap.mp h
      by_cases he :
          ((innerRows k1 k2).filter (fun b => decide (b = a0))).isEmpty
            = true
      · rw [if_pos he] at hin
        have heq : a = a0 := congrArg Prod.fst (List.mem_singleton.mp hin)
        subst heq
        exact ⟨ha0, (filter_isEmpty_iff _ a).mp he⟩
      · rw [if_neg he] at hin
        obtain ⟨b, hb, hba⟩ := List.mem_map.mp hin
        exact absurd (congrArg Prod.snd hba) (by simp)
    · obtain ⟨b, hb, hba⟩ := List.mem_map.mp h
      exact absurd (congrArg Prod.snd hba) (by simp)
  · rintro ⟨hout, hnin⟩
    apply List.mem_append_left
    apply List.mem_flatMap.mpr
    refine ⟨a, hout, ?_⟩
    rw [if_pos ((filter_isEmpty_iff _ a).mpr hnin)]
    exact List.mem_singleton.mpr rfl

lemma mem_get_diff_entries {K : Type} [DecidableEq K] (k1 k2 : List K)
    (a : K) :
    a ∈ get_diff_entries k1 k2
      ↔ (a ∈ k1 ∨ a ∈ k2) ∧ ¬(a ∈ k1 ∧ a ∈ k2) := by
  have hstep : a ∈ get_diff_entries k1 k2
      ↔ (a, false) ∈ mergeTagged k1 k2 := by
    simp only [get_diff_entries, List.mem_map, List.mem_filter]
    constructor
    · rintro ⟨⟨b, tag⟩, ⟨hmem, htag⟩, rfl⟩
      have : tag = false := by
        revert htag; cases tag <;> simp
      rw [this] at hmem
      exact hmem
    · intro h
      exact ⟨(a, false), ⟨h, by simp⟩, rfl⟩
  rw [hstep, false_mem_mergeTagged, mem_outerRows, mem_innerRows]

/-- C6: `get_diff_entries` returns exactly the key values present in one
table but not the other (the symmetric difference); on the concrete keys
A,B,C versus B,C,D it returns the mismatch list A, D. -/
theorem get_diff_entries_symm_diff :
    (∀ (K : Type) [DecidableEq K] (k1 k2 : List K) (a : K),
        a ∈ get_diff_entries k1 k2
          ↔ ((a ∈ k1 ∧ a ∉ k2) ∨ (a ∈ k2 ∧ a ∉ k1)))
    ∧ get_diff_entries ["A", "B", "C"] ["B", "C", "D"] = ["A", "D"] := by
  constructor
  · intro K instK k1 k2 a
    rw [mem_get_diff_entries]
    tauto
  · decide

/-- C7: reconciling a table with itself yields an empty mismatch list. -/
theorem get_diff_entries_self_empty (K : Type) [DecidableEq K]
    (k : List K) : get_diff_entries k k = [] := by
  have hall : ∀ r ∈ mergeTagged k k, r.2 = true := by
    intro r hr
    rcases List.mem_append.mp hr with h | h
    · obtain ⟨a0, ha0, hin⟩ := List.mem_flatMap.mp h
      have hk : a0 ∈ k := ((mem_outerRows k k a0).mp ha0).elim id id
      have hinner : a0 ∈ innerRows k k := (mem_innerRows k k a0).mpr ⟨hk, hk⟩
      have he :
          ((innerRows k k).filter (fun b => decide (b = a0))).isEmpty
            ≠ true := fun he => (filter_isEmpty_iff _ a0).mp he hinner
      rw [if_neg he] at hin
      obtain ⟨b, hb, hba⟩ := List.mem_map.mp hin
      rw [← hba]
    · obtain ⟨b, hb, hba⟩ := List.mem_map.mp h
      rw [← hba]
  have hfil : (mergeTagged k k).filter (fun r => !r.2) = [] := by
    rw [List.filter_eq_nil_iff]
    intro r hr
    simp [hall r hr]
  rw [get_diff_entries, hfil]
  rfl

-- Script statement order for the names x and y.

/-- The top-level statements of `adscode3.py` from the merge (line 130)
through the assignments of `x` and `y` (lines 160-161), in source order,
each as the pair (names read, names written) restricted to the script
variables involved; later statements only read names already written
here, so this prefix decides every first-use question. The entry for
line 153 is the clustering scatter call `plt.scatter(x, y,
c=merged_data['Cluster'])`. -/
def scriptSteps : List (List String × List String) :=
  [ (["renewable_electricity_data", "access_to_electricity_data"],
      ["merged_data"]),
    (["merged_data"], ["merged_data"]),
    (["merged_data"], ["column_means"]),
    (["merged_data", "column_means"], ["merged_data"]),
    (["merged_data"], ["normalized_data", "min_values", "max_values"]),
    ([], ["kmeans"]),
    (["kmeans", "normalized_data"], ["cluster_labels"]),
    (["merged_data", "cluster_labels"], ["merged_data"]),
    (["x", "y", "merged_data"], []),
    (["merged_data"], ["x"]),
    (["merged_data"], ["y"]) ]

/-- Whether, scanning the statements in order, the name `n` is read by
some statement before any statement writes it (a forward reference: in
Python this read raises NameError at run time). -/
def firstReadBeforeWrite : List (List String × List String) → String → Bool
  | [], _ => false
  | (r, w) :: rest, n =>
    if n ∈ r then true
    else if n ∈ w then false
    else firstReadBeforeWrite rest n

/-- C8 (code bug): the clustering scatter call reads `x` and `y` before
the script writes them -- the forward reference the spec flags as an
ordering bug is present in the source. -/
theorem scatter_reads_xy_before_assignment :
    firstReadBeforeWrite scriptSteps "x" = true
    ∧ firstReadBeforeWrite scriptSteps "y" = true := by
  constructor
  · decide
  · decide

-- Missing-value resolution on the merged table.

/-- Model of `df.fillna(v)`: every missing cell becomes `v`, every
present cell is kept. -/
def fillna (t : List (List (Option ℚ))) (v : ℚ) :
    List (List (Option ℚ)) :=
  t.map (fun col => col.map (fun c => some (c.getD v)))

/-- Model of a column's `df.mean()` entry: pandas averages the non-null
cells, and yields NaN (here `none`) when there are none. -/
def colMean (col : List (Option ℚ)) : Option ℚ :=
  if (col.filterMap id).length = 0 then none
  else some ((col.filterMap id).sum / ((col.filterMap id).length : ℚ))

/-- Model of `df.fillna(df.mean())`: each missing cell is replaced by
its column's mean of the non-null cells. -/
def fillnaMeans (t : List (List (Option ℚ))) : List (List (Option ℚ)) :=
  t.map (fun col => col.map (fun c =>
    match c with
    | some v => some v
    | none => colMean col))

/-- C10: after the zero-fill (`merged_data.fillna(0)`) no missing value
remains, so the subsequent column-mean fill leaves the table unchanged:
the two-step resolution equals the zero-fill alone, on every input. -/
theorem fillna_zero_then_mean_noop (t : List (List (Option ℚ))) :
    (∀ col ∈ fillna t 0, ∀ c ∈ col, c.isSome = true)
    ∧ fillnaMeans (fillna t 0) = fillna t 0 := by
  constructor
  · intro col hcol c hc
    obtain ⟨col0, -, rfl⟩ := List.mem_map.mp hcol
    obtain ⟨c0, -, rfl⟩ := List.mem_map.mp hc
    rfl
  · show (fillna t 0).map _ = fillna t 0
    rw [show fillna t 0 = t.map (fun col => col.map
      (fun c => some (c.getD 0))) from rfl, List.map_map]
    congr 1
    funext col
    rw [Function.comp_apply, List.map_map]
    congr 1
